import Mathlib

/-!
Verification of the send-flow scheduler of the Telegram Auto-Listener /
Smart-Sender system (`src/bot.py`), as a shallow embedding in Lean 4.

Modelling conventions:
* Python strings are Lean `String`; `str.strip()` is `pyStrip` (drop leading
  and trailing whitespace characters) and `str.lower()` is `pyLower`
  (character-wise lowering), both defined below on the character list of the
  string.
* Timestamps (`time.time()` floats and `datetime` values alike) are rational
  numbers of seconds since the epoch; `timedelta(days = d)` is `d * 86400`
  seconds.  Differences and comparisons of both Python types correspond to
  rational subtraction and ordering.
* A Python `dict` is an association list, insertion at the front, lookup
  returning the most recent binding; `d.get(k, default)` is `dictGet`.
* A queue file on disk is `Option (List String)`: `none` for a missing file,
  `some ls` for a file whose physical lines are `ls`.
* Randomness (`random.uniform`, `random.shuffle`) is passed in as an explicit
  parameter (the drawn value, resp. the shuffled visiting order).
* The network transport (`client.send_message`) is replaced by an explicit
  `SendOutcome` parameter saying which of the handled exceptions (if any) the
  attempt raised.
-/

namespace Bot

/-- Drop leading and trailing whitespace from a character list
(both-ends strip, as Python's `str.strip()`). -/
def stripChars (l : List Char) : List Char :=
  ((l.dropWhile Char.isWhitespace).reverse.dropWhile Char.isWhitespace).reverse

/-- Python's `s.strip()`. -/
def pyStrip (s : String) : String := ⟨stripChars s.data⟩

/-- Python's `s.lower()` (character-wise). -/
def pyLower (s : String) : String := ⟨s.data.map Char.toLower⟩

/-- Lookup in a dict modelled as an association list (`d.get(k, default)`
with rational values, as used for `disabled_until`). -/
def dictGet (d : List (String × ℚ)) (k : String) (default : ℚ) : ℚ :=
  match d.lookup k with
  | some v => v
  | none => default

/-- Write `d[k] = v` on a rational-valued dict: bind `k` at the front. -/
def dictSet (d : List (String × ℚ)) (k : String) (v : ℚ) : List (String × ℚ) :=
  (k, v) :: d

/-- Lookup in a nat-valued dict (`send_counter.get(k, 0)`). -/
def natDictGet (d : List (String × ℕ)) (k : String) (default : ℕ) : ℕ :=
  match d.lookup k with
  | some v => v
  | none => default

/-- Write `d[k] = v` on a nat-valued dict. -/
def natDictSet (d : List (String × ℕ)) (k : String) (v : ℕ) : List (String × ℕ) :=
  (k, v) :: d

/-! ### Queue files (`read_lines_unique`, `append_unique_line`,
`remove_username_from_file_atomic`, `move_line_to_end_atomic`) -/

/-- Python's `[ln.strip() for ln in f if ln.strip()]`: strip every line, drop blanks. -/
def stripLines (ls : List String) : List String :=
  (ls.map pyStrip).filter (· ≠ "")

/-- The `seen`/`out` first-occurrence deduplication loop of
`read_lines_unique`. -/
def dedupFirstAux (seen : List String) : List String → List String
  | [] => []
  | l :: ls =>
      if l ∈ seen then dedupFirstAux seen ls
      else l :: dedupFirstAux (l :: seen) ls

/-- First-occurrence deduplication, as in `read_lines_unique`. -/
def dedupFirst (ls : List String) : List String :=
  dedupFirstAux [] ls

/-- Embedding of `read_lines_unique(path)`: missing file is `[]`; otherwise strip lines,
drop blanks, deduplicate keeping first occurrences. -/
def read_lines_unique (file : Option (List String)) : List String :=
  match file with
  | none => []
  | some ls => dedupFirst (stripLines ls)

/-- Embedding of `append_unique_line(path, line)`: open in `a+` mode (creating a missing
file), read the stripped non-blank lines, return `false` if `line` is among
them, otherwise append `line` and return `true`.  Result: new file contents
and the returned boolean. -/
def append_unique_line (file : Option (List String)) (line : String) :
    Option (List String) × Bool :=
  let cur := match file with
    | none => []
    | some ls => ls
  let lines := stripLines cur
  if line ∈ lines then (some cur, false)
  else (some (cur ++ [line]), true)

/-- Embedding of `remove_username_from_file_atomic(path, username)`: rewrite the file with
the deduplicated lines that differ from `username`. -/
def remove_username_from_file_atomic (file : Option (List String))
    (username : String) : Option (List String) :=
  some ((read_lines_unique file).filter (· ≠ username))

/-- The first-occurrence removal loop of `move_line_to_end_atomic`
(`found` flag plus rebuilt list). -/
def removeFirst : List String → String → List String × Bool
  | [], _ => ([], false)
  | l :: ls, x =>
      if l = x then (ls, true)
      else
        let r := removeFirst ls x
        (l :: r.1, r.2)

/-- Embedding of `move_line_to_end_atomic(path, line)`: read the deduplicated lines;
if empty or `line` absent return `false` leaving the file untouched,
otherwise rewrite with the first occurrence of `line` moved to the end and
return `true`. -/
def move_line_to_end_atomic (file : Option (List String)) (line : String) :
    Option (List String) × Bool :=
  let lines := read_lines_unique file
  if lines = [] then (file, false)
  else
    let r := removeFirst lines line
    if r.2 then (some (r.1 ++ [line]), true)
    else (file, false)

/-! ### Sender selection (`choose_sender_index`) -/

/-- Embedding of `is_available(sess)` inside `choose_sender_index`: not permanently
blocked, and `now_ts >= disabled_until.get(sess, 0.0)`. -/
def is_available (perma_blocked : List String)
    (disabled_until : List (String × ℚ)) (now_ts : ℚ) (sess : String) : Bool :=
  if sess ∈ perma_blocked then false
  else decide (dictGet disabled_until sess 0 ≤ now_ts)

/-- The `random`-mode scan: walk the shuffled index order and return the first
available index.  The shuffled order produced by `random.shuffle` is the
`order` parameter. -/
def randomScan (sessions : List String) (avail : String → Bool) :
    List ℕ → Option ℕ
  | [] => none
  | i :: rest =>
      if avail (sessions.getD i "") then some i else randomScan sessions avail rest

/-- The `round_robin` loop: `for _ in range(n): last_index = (last_index+1)%n;
if available: return last_index`, with Python's nonnegative `%` on a positive
modulus rendered as `Int.emod`. -/
def rrScan (sessions : List String) (avail : String → Bool) :
    ℕ → ℤ → Option ℕ
  | 0, _ => none
  | fuel + 1, last =>
      let nxt : ℤ := (last + 1) % (sessions.length : ℤ)
      if avail (sessions.getD nxt.toNat "") then some nxt.toNat
      else rrScan sessions avail fuel nxt

/-- Embedding of `choose_sender_index(mode, sender_sessions, last_index, disabled_until,
now_ts, perma_blocked)`.  `order` stands for the shuffled `list(range(n))`
consumed in `random` mode only. -/
def choose_sender_index (mode : String) (sender_sessions : List String)
    (last_index : ℤ) (disabled_until : List (String × ℚ)) (now_ts : ℚ)
    (perma_blocked : List String) (order : List ℕ) : Option ℕ :=
  let n := sender_sessions.length
  if n = 0 then none
  else
    let avail := is_available perma_blocked disabled_until now_ts
    if mode = "single_account" then
      if avail (sender_sessions.getD 0 "") then some 0 else none
    else if mode = "random" then
      randomScan sender_sessions avail order
    else
      rrScan sender_sessions avail n last_index

/-! ### Sent history (`load_sent_history`, `append_sent_history`,
`within_history_window`) and the in-process `sent_hist` dict -/

/-- A key of the in-process `sent_hist` dict.  `load_sent_history` fills it
with tuple keys `(username, message_key)`; the success branch of
`send_one_message` additionally inserts plain-string keys
`username.lower()`. -/
inductive HistKey where
  | tup (username message_key : String)
  | str (s : String)
deriving DecidableEq

/-- Lookup in the `sent_hist` dict (values: timestamps in seconds). -/
def histGet (hist : List (HistKey × ℚ)) (k : HistKey) : Option ℚ :=
  hist.lookup k

/-- Bind a key of the `sent_hist` dict. -/
def histSet (hist : List (HistKey × ℚ)) (k : HistKey) (v : ℚ) :
    List (HistKey × ℚ) :=
  (k, v) :: hist

/-- Embedding of `within_history_window(hist, username, message_key, days)`:
`dt = hist.get((username, message_key))`; `False` when absent, else
`(utc_now() - dt) < timedelta(days=days)`.  `now` stands for `utc_now()`. -/
def within_history_window (hist : List (HistKey × ℚ))
    (username message_key : String) (days : ℕ) (now : ℚ) : Bool :=
  match histGet hist (.tup username message_key) with
  | none => false
  | some dt => decide (now - dt < (days : ℚ) * 86400)

/-! ### One send attempt (`send_one_message`) -/

/-- What the transport did on one `client.send_message` call: either it
succeeded, or it raised one of the exceptions `send_one_message` handles
(`FloodWait` carries the server-indicated wait in seconds; `genericError`
covers the final bare `except Exception`). -/
inductive SendOutcome where
  | success
  | peerFlood
  | userPrivacyRestricted
  | badRequest
  | floodWait (seconds : ℤ)
  | genericError
deriving DecidableEq

/-- The shared mutable state threaded through `send_one_message`:
the pool-wide `disabled_until` map, the in-process `sent_hist` dict and the
flow-run-local `send_counter`. -/
structure SendState where
  disabled_until : List (String × ℚ)
  sent_hist : List (HistKey × ℚ)
  send_counter : List (String × ℕ)
deriving DecidableEq

/-- Embedding of `send_one_message(...)`, returning the `ok` boolean and the mutated
state.  `now_ts` is `time.time()` at entry; `u` is the value drawn by
`random.uniform(20, 40)` for the per-turn-cap cooldown (consumed only on
that branch); `outcome` is what the transport did (consulted only when the
cap has not been reached). -/
def send_one_message (session_path username : String) (outcome : SendOutcome)
    (now_ts u : ℚ) (st : SendState) : Bool × SendState :=
  let peer_flood_cooldown : ℚ := 6 * 3600
  let generic_error_cooldown : ℚ := 300
  let count := natDictGet st.send_counter session_path 0
  if count ≥ 2 then
    (false, { st with
      disabled_until := dictSet st.disabled_until session_path (now_ts + u) })
  else
    match outcome with
    | .success =>
        (true, { st with
          send_counter := natDictSet st.send_counter session_path (count + 1),
          sent_hist := histSet st.sent_hist (.str (pyLower username)) now_ts })
    | .peerFlood =>
        (false, { st with
          disabled_until :=
            dictSet st.disabled_until session_path (now_ts + peer_flood_cooldown) })
    | .userPrivacyRestricted => (false, st)
    | .badRequest => (false, st)
    | .floodWait s =>
        (false, { st with
          disabled_until :=
            dictSet st.disabled_until session_path (now_ts + (s : ℚ) + 2) })
    | .genericError =>
        (false, { st with
          disabled_until :=
            dictSet st.disabled_until session_path (now_ts + generic_error_cooldown) })

/-! ### The per-recipient outcome step of `_process_file_sends` -/

/-- A row of `logs/send_log.csv` (after the
`timestamp,username,group,sender_session,result,error` header). -/
structure SendLogRow where
  timestamp : ℚ
  username : String
  group : String
  sender_session : String
  result : String
  error : String
deriving DecidableEq

/-- A row of the `logs/sent_history.csv` ledger (after the
`timestamp,username,message_key` header). -/
structure HistRow where
  timestamp : ℚ
  username : String
  message_key : String
deriving DecidableEq

/-- The state a flow's dispatch loop touches when it processes one recipient:
the flow's queue file, the two append-only logs, and the shared
`SendState`. -/
structure FlowState where
  queue_file : Option (List String)
  send_log : List SendLogRow
  history_file : List HistRow
  core : SendState
deriving DecidableEq

/-- The send-and-outcome portion of the `_process_file_sends` loop body for
one recipient (after validation, cooldown check and identity selection):
call `send_one_message`; on `ok`, append the `"OK"` row to the send log,
remove the recipient from the queue file and append a ledger row; otherwise
move the recipient to the end of the queue file.  `username` is the raw queue
line, `uname` its normalized form. -/
def process_outcome (flow_name session_path username uname message_key : String)
    (outcome : SendOutcome) (now_ts u : ℚ) (st : FlowState) : FlowState :=
  let r := send_one_message session_path uname outcome now_ts u st.core
  if r.1 then
    { queue_file := remove_username_from_file_atomic st.queue_file username
      send_log := st.send_log ++
        [⟨now_ts, uname, flow_name, session_path, "OK", ""⟩]
      history_file := st.history_file ++ [⟨now_ts, uname, message_key⟩]
      core := r.2 }
  else
    { st with
      queue_file := (move_line_to_end_atomic st.queue_file username).1
      core := r.2 }

/-! ### Derived definitions used to state the claims -/

/-- Run a whole sequence of `append_unique_line` calls, collecting the
returned booleans. -/
def appendAll (file : Option (List String)) :
    List String → Option (List String) × List Bool
  | [] => (file, [])
  | r :: rs =>
      let p := append_unique_line file r
      let q := appendAll p.1 rs
      (q.1, p.2 :: q.2)

/-- Spec-side model of one `append_if_absent` on the loaded sequence:
keep the sequence if the recipient is present, else put it at the end. -/
def addIfAbsent (f : List String) (r : String) : List String :=
  if r ∈ f then f else f ++ [r]

/-- Spec-side model of a whole append sequence on a fresh queue: each
distinct recipient exactly once, in first-append order. -/
def firstAppendOrder (rs : List String) : List String :=
  rs.foldl addIfAbsent []

/-- The cyclic sequence of positions a round-robin scan starting after
cursor `last` probes: `(last+1) % n, (last+2) % n, …, (last+n) % n`. -/
def cyclePositions (n : ℕ) (last : ℤ) : List ℕ :=
  (List.range n).map (fun k : ℕ => ((last + 1 + (k : ℤ)) % (n : ℤ)).toNat)

/-- Runs `k` consecutive round-robin selections, each feeding its returned index
back as the new shared cursor (as `_process_file_sends` does through
`last_idx_ref`); stops if the selector reports exhaustion. -/
def rrVisits (sessions : List String) (disabled_until : List (String × ℚ))
    (now_ts : ℚ) (perma_blocked : List String) : ℕ → ℤ → List ℕ
  | 0, _ => []
  | k + 1, last =>
      match choose_sender_index "round_robin" sessions last disabled_until
          now_ts perma_blocked [] with
      | none => []
      | some i =>
          i :: rrVisits sessions disabled_until now_ts perma_blocked k (i : ℤ)

/-- A file (physical line list) is clean when every line is strip-fixed and
nonempty — the shape every normalized recipient token has. -/
abbrev cleanLines (ls : List String) : Prop :=
  ∀ l ∈ ls, pyStrip l = l ∧ l ≠ ""

/-- A queue file is clean when it is missing or its lines are clean. -/
def cleanFile : Option (List String) → Prop
  | none => True
  | some ls => cleanLines ls

/-! ### Lemmas about the queue-file model -/

theorem stripLines_of_clean {ls : List String} (h : cleanLines ls) :
    stripLines ls = ls := by
  induction ls with
  | nil => rfl
  | cons a t ih =>
      have ha := h a (by simp)
      have ht : cleanLines t := fun l hl => h l (by simp [hl])
      simp only [stripLines, List.map_cons, ha.1] at *
      rw [List.filter_cons_of_pos (by simpa using ha.2)]
      exact congrArg (a :: ·) (ih ht)

theorem mem_dedupFirstAux {x : String} :
    ∀ {seen ls : List String}, x ∈ dedupFirstAux seen ls ↔ x ∈ ls ∧ x ∉ seen := by
  intro seen ls
  induction ls generalizing seen with
  | nil => simp [dedupFirstAux]
  | cons l t ih =>
      by_cases hl : l ∈ seen
      · rw [show dedupFirstAux seen (l :: t) = dedupFirstAux seen t from if_pos hl, ih]
        constructor
        · rintro ⟨hx, hs⟩; exact ⟨List.mem_cons_of_mem _ hx, hs⟩
        · rintro ⟨hx, hs⟩
          rcases List.mem_cons.1 hx with rfl | hx
          · exact absurd hl hs
          · exact ⟨hx, hs⟩
      · rw [show dedupFirstAux seen (l :: t) = l :: dedupFirstAux (l :: seen) t
          from if_neg hl]
        constructor
        · intro hmem
          rcases List.mem_cons.1 hmem with rfl | hmem
          · exact ⟨List.mem_cons_self _ _, hl⟩
          · obtain ⟨hx, hs⟩ := ih.1 hmem
            exact ⟨List.mem_cons_of_mem _ hx,
              fun hxs => hs (List.mem_cons_of_mem _ hxs)⟩
        · rintro ⟨hx, hs⟩
          rcases List.mem_cons.1 hx with rfl | hx
          · exact List.mem_cons_self _ _
          · by_cases hxl : x = l
            · exact hxl ▸ List.mem_cons_self _ _
            · refine List.mem_cons_of_mem _ (ih.2 ⟨hx, ?_⟩)
              intro hxs
              rcases List.mem_cons.1 hxs with h | h
              · exact hxl h
              · exact hs h

theorem nodup_dedupFirstAux :
    ∀ (seen ls : List String), (dedupFirstAux seen ls).Nodup := by
  intro seen ls
  induction ls generalizing seen with
  | nil => simp [dedupFirstAux]
  | cons l t ih =>
      by_cases hl : l ∈ seen
      · simpa [dedupFirstAux, if_pos hl] using ih seen
      · have hnotmem : l ∉ dedupFirstAux (l :: seen) t := by
          intro hmem
          exact (mem_dedupFirstAux.1 hmem).2 (List.mem_cons_self l seen)
        simpa [dedupFirstAux, if_neg hl] using List.nodup_cons.2 ⟨hnotmem, ih (l :: seen)⟩

theorem dedupFirstAux_eq_self :
    ∀ {seen ls : List String}, (∀ x ∈ ls, x ∉ seen) → ls.Nodup →
      dedupFirstAux seen ls = ls := by
  intro seen ls hdisj hnd
  induction ls generalizing seen with
  | nil => rfl
  | cons l t ih =>
      have hl : l ∉ seen := hdisj l (by simp)
      rw [List.nodup_cons] at hnd
      simp only [dedupFirstAux, if_neg hl]
      refine congrArg (l :: ·) (ih ?_ hnd.2)
      intro x hx
      simp only [List.mem_cons, not_or]
      exact ⟨fun h => hnd.1 (h ▸ hx), hdisj x (by simp [hx])⟩

theorem mem_dedupFirst {x : String} {ls : List String} :
    x ∈ dedupFirst ls ↔ x ∈ ls := by
  simp [dedupFirst, mem_dedupFirstAux]

theorem nodup_dedupFirst (ls : List String) : (dedupFirst ls).Nodup :=
  nodup_dedupFirstAux [] ls

theorem dedupFirst_of_nodup {ls : List String} (h : ls.Nodup) :
    dedupFirst ls = ls :=
  dedupFirstAux_eq_self (by simp) h

theorem sublist_dedupFirstAux :
    ∀ (seen ls : List String), (dedupFirstAux seen ls).Sublist ls := by
  intro seen ls
  induction ls generalizing seen with
  | nil => simp [dedupFirstAux]
  | cons l t ih =>
      by_cases hl : l ∈ seen
      · rw [show dedupFirstAux seen (l :: t) = dedupFirstAux seen t from if_pos hl]
        exact (ih seen).trans (List.sublist_cons_self l t)
      · rw [show dedupFirstAux seen (l :: t) = l :: dedupFirstAux (l :: seen) t
          from if_neg hl]
        exact (ih (l :: seen)).cons₂ l

theorem nodup_read_lines_unique (file : Option (List String)) :
    (read_lines_unique file).Nodup := by
  cases file with
  | none => simp [read_lines_unique]
  | some ls => exact nodup_dedupFirst _

theorem read_lines_unique_of_clean_nodup {l : List String}
    (hc : cleanLines l) (hn : l.Nodup) : read_lines_unique (some l) = l := by
  rw [read_lines_unique, stripLines_of_clean hc, dedupFirst_of_nodup hn]

theorem clean_read_lines_unique {file : Option (List String)}
    (h : cleanFile file) : cleanLines (read_lines_unique file) := by
  cases file with
  | none => intro l hl; simp [read_lines_unique] at hl
  | some ls =>
      intro l hl
      rw [read_lines_unique, stripLines_of_clean h] at hl
      exact h l (mem_dedupFirst.1 hl)

theorem removeFirst_eq (ls : List String) (x : String) :
    removeFirst ls x = (ls.erase x, decide (x ∈ ls)) := by
  induction ls with
  | nil => simp [removeFirst]
  | cons l t ih =>
      by_cases hlx : l = x
      · subst hlx
        simp [removeFirst, List.erase_cons_head]
      · have h1 : (l :: t).erase x = l :: t.erase x :=
          List.erase_cons_tail (by simpa using hlx)
        have h2 : (x ∈ l :: t) ↔ (x ∈ t) := by
          constructor
          · intro h
            rcases List.mem_cons.1 h with rfl | h
            · exact absurd rfl hlx
            · exact h
          · exact List.mem_cons_of_mem _
        simp only [removeFirst, if_neg hlx, ih, h1]
        exact Prod.ext rfl (decide_eq_decide.2 h2.symm)

theorem move_spec_mem {file : Option (List String)} {line : String}
    (h : line ∈ read_lines_unique file) :
    move_line_to_end_atomic file line =
      (some ((read_lines_unique file).erase line ++ [line]), true) := by
  have hne : read_lines_unique file ≠ [] := by
    intro he; rw [he] at h; simp at h
  simp only [move_line_to_end_atomic, removeFirst_eq]
  rw [if_neg hne]
  simp [h]

theorem move_spec_not_mem {file : Option (List String)} {line : String}
    (h : line ∉ read_lines_unique file) :
    move_line_to_end_atomic file line = (file, false) := by
  simp only [move_line_to_end_atomic, removeFirst_eq]
  by_cases hne : read_lines_unique file = []
  · rw [if_pos hne]
  · rw [if_neg hne]
    simp [h]

theorem clean_erase_append {q : List String} {line : String}
    (hq : cleanLines q) (hnd : q.Nodup) (h : line ∈ q) :
    cleanLines (q.erase line ++ [line]) ∧ (q.erase line ++ [line]).Nodup := by
  constructor
  · intro x hx
    rcases List.mem_append.1 hx with hx | hx
    · exact hq x (List.mem_of_mem_erase hx)
    · rw [List.mem_singleton.1 hx]; exact hq line h
  · rw [List.nodup_append]
    refine ⟨hnd.erase line, List.nodup_singleton line, ?_⟩
    intro x hx hx'
    rw [List.mem_singleton.1 hx'] at hx
    exact ((hnd.mem_erase_iff).1 hx).1 rfl

theorem read_move {file : Option (List String)} (line : String)
    (hc : cleanFile file) :
    read_lines_unique ((move_line_to_end_atomic file line).1) =
      if line ∈ read_lines_unique file
      then (read_lines_unique file).erase line ++ [line]
      else read_lines_unique file := by
  by_cases h : line ∈ read_lines_unique file
  · rw [if_pos h, move_spec_mem h]
    obtain ⟨hcl, hnd⟩ :=
      clean_erase_append (clean_read_lines_unique hc) (nodup_read_lines_unique file) h
    exact read_lines_unique_of_clean_nodup hcl hnd
  · rw [if_neg h, move_spec_not_mem h]

theorem mem_read_move {file : Option (List String)} (line : String)
    (hc : cleanFile file) (x : String) :
    x ∈ read_lines_unique ((move_line_to_end_atomic file line).1) ↔
      x ∈ read_lines_unique file := by
  rw [read_move line hc]
  by_cases h : line ∈ read_lines_unique file
  · rw [if_pos h]
    by_cases hx : x = line
    · subst hx; simp [h]
    · simp only [List.mem_append, List.mem_singleton, hx, or_false]
      exact (nodup_read_lines_unique file).mem_erase_iff.trans (by simp [hx])
  · rw [if_neg h]

theorem cleanFile_move {file : Option (List String)} (line : String)
    (hc : cleanFile file) : cleanFile ((move_line_to_end_atomic file line).1) := by
  by_cases h : line ∈ read_lines_unique file
  · rw [move_spec_mem h]
    exact (clean_erase_append (clean_read_lines_unique hc)
      (nodup_read_lines_unique file) h).1
  · rw [move_spec_not_mem h]
    exact hc

/-! ### Lemmas about append sequences (for the dedup contract) -/

theorem mem_addIfAbsent {x : String} {f : List String} {r : String} :
    x ∈ addIfAbsent f r ↔ x ∈ f ∨ x = r := by
  unfold addIfAbsent
  by_cases h : r ∈ f
  · rw [if_pos h]
    constructor
    · exact Or.inl
    · rintro (hx | rfl)
      · exact hx
      · exact h
  · rw [if_neg h]
    simp [List.mem_append]

theorem addIfAbsent_clean {f : List String} {r : String}
    (hf : cleanLines f) (hr : pyStrip r = r ∧ r ≠ "") :
    cleanLines (addIfAbsent f r) := by
  intro x hx
  rcases mem_addIfAbsent.1 hx with hx | rfl
  · exact hf x hx
  · exact hr

theorem addIfAbsent_nodup {f : List String} {r : String} (hf : f.Nodup) :
    (addIfAbsent f r).Nodup := by
  unfold addIfAbsent
  by_cases h : r ∈ f
  · rwa [if_pos h]
  · rw [if_neg h, List.nodup_append]
    exact ⟨hf, List.nodup_singleton r, by
      intro x hx hx'
      rw [List.mem_singleton.1 hx'] at hx
      exact h hx⟩

theorem foldl_addIfAbsent_clean_nodup :
    ∀ (rs : List String) (f : List String), cleanLines f → f.Nodup →
      (∀ r ∈ rs, pyStrip r = r ∧ r ≠ "") →
      cleanLines (rs.foldl addIfAbsent f) ∧ (rs.foldl addIfAbsent f).Nodup := by
  intro rs
  induction rs with
  | nil => intro f hc hn _; exact ⟨hc, hn⟩
  | cons r t ih =>
      intro f hc hn hrs
      rw [List.foldl_cons]
      exact ih (addIfAbsent f r)
        (addIfAbsent_clean hc (hrs r (by simp)))
        (addIfAbsent_nodup hn)
        (fun x hx => hrs x (by simp [hx]))

theorem append_unique_line_some {f : List String} (r : String)
    (hf : cleanLines f) :
    append_unique_line (some f) r = (some (addIfAbsent f r), !decide (r ∈ f)) := by
  simp only [append_unique_line, stripLines_of_clean hf, addIfAbsent]
  by_cases h : r ∈ f
  · simp [h]
  · simp [h]

theorem appendAll_some :
    ∀ (rs : List String) (f : List String), cleanLines f → f.Nodup →
      (∀ r ∈ rs, pyStrip r = r ∧ r ≠ "") →
      (appendAll (some f) rs).1 = some (rs.foldl addIfAbsent f) := by
  intro rs
  induction rs with
  | nil => intro f _ _ _; rfl
  | cons r t ih =>
      intro f hc hn hrs
      rw [List.foldl_cons]
      show (appendAll (append_unique_line (some f) r).1 t).1 = _
      rw [append_unique_line_some r hc]
      exact ih (addIfAbsent f r)
        (addIfAbsent_clean hc (hrs r (by simp)))
        (addIfAbsent_nodup hn)
        (fun x hx => hrs x (by simp [hx]))

theorem foldl_addIfAbsent_eq_dedup :
    ∀ (rs seen acc : List String), (∀ x, x ∈ seen ↔ x ∈ acc) →
      List.foldl addIfAbsent acc rs = acc ++ dedupFirstAux seen rs := by
  intro rs
  induction rs with
  | nil => intro seen acc _; simp [dedupFirstAux]
  | cons r t ih =>
      intro seen acc hsa
      rw [List.foldl_cons]
      by_cases h : r ∈ seen
      · have hra : r ∈ acc := (hsa r).1 h
        rw [show addIfAbsent acc r = acc from if_pos hra,
          show dedupFirstAux seen (r :: t) = dedupFirstAux seen t from if_pos h]
        exact ih seen acc hsa
      · have hra : r ∉ acc := fun hx => h ((hsa r).2 hx)
        rw [show addIfAbsent acc r = acc ++ [r] from if_neg hra,
          show dedupFirstAux seen (r :: t) = r :: dedupFirstAux (r :: seen) t
            from if_neg h]
        rw [ih (r :: seen) (acc ++ [r]) (by intro x; simp [hsa x, or_comm])]
        simp

theorem firstAppendOrder_eq_dedupFirst (rs : List String) :
    firstAppendOrder rs = dedupFirst rs := by
  simpa using foldl_addIfAbsent_eq_dedup rs [] [] (by simp)

theorem append_unique_line_bool (file : Option (List String)) (line : String) :
    (append_unique_line file line).2 = !decide (line ∈ read_lines_unique file) := by
  cases file with
  | none =>
      show (append_unique_line (some []) line).2 = _
      simp [append_unique_line, stripLines, read_lines_unique]
  | some ls =>
      simp only [append_unique_line, read_lines_unique]
      by_cases h : line ∈ stripLines ls
      · simp [h, mem_dedupFirst.2 h]
      · simp only [if_neg h]
        have : line ∉ dedupFirst (stripLines ls) := fun hx => h (mem_dedupFirst.1 hx)
        simp [this]

/-! ### Lemmas about sender selection -/

theorem is_available_iff {perma : List String} {d : List (String × ℚ)}
    {now : ℚ} {sess : String} :
    is_available perma d now sess = true ↔ sess ∉ perma ∧ dictGet d sess 0 ≤ now := by
  unfold is_available
  by_cases h : sess ∈ perma
  · simp [h]
  · simp [h]

theorem rrScan_sound {sessions : List String} {avail : String → Bool}
    (hn : 0 < sessions.length) :
    ∀ (fuel : ℕ) (last : ℤ) (i : ℕ), rrScan sessions avail fuel last = some i →
      i < sessions.length ∧ avail (sessions.getD i "") = true := by
  intro fuel
  induction fuel with
  | zero => intro last i h; simp [rrScan] at h
  | succ k ih =>
      intro last i h
      have h0 : (0:ℤ) ≤ (last + 1) % (sessions.length : ℤ) :=
        Int.emod_nonneg _ (by exact_mod_cast hn.ne')
      have h1 : (last + 1) % (sessions.length : ℤ) < (sessions.length : ℤ) :=
        Int.emod_lt_of_pos _ (by exact_mod_cast hn)
      rw [rrScan] at h
      by_cases ha : avail (sessions.getD ((last + 1) % (sessions.length : ℤ)).toNat "") = true
      · rw [if_pos ha] at h
        cases h
        exact ⟨by omega, ha⟩
      · rw [if_neg ha] at h
        exact ih _ i h

theorem rrScan_none {sessions : List String} {avail : String → Bool}
    (hn : 0 < sessions.length)
    (hall : ∀ j < sessions.length, avail (sessions.getD j "") = false) :
    ∀ (fuel : ℕ) (last : ℤ), rrScan sessions avail fuel last = none := by
  intro fuel
  induction fuel with
  | zero => intro last; rfl
  | succ k ih =>
      intro last
      have h0 : (0:ℤ) ≤ (last + 1) % (sessions.length : ℤ) :=
        Int.emod_nonneg _ (by exact_mod_cast hn.ne')
      have h1 : (last + 1) % (sessions.length : ℤ) < (sessions.length : ℤ) :=
        Int.emod_lt_of_pos _ (by exact_mod_cast hn)
      rw [rrScan]
      rw [if_neg (by
        rw [hall _ (by omega)]
        simp)]
      exact ih _

theorem randomScan_sound {sessions : List String} {avail : String → Bool} :
    ∀ (order : List ℕ) (i : ℕ), randomScan sessions avail order = some i →
      i ∈ order ∧ avail (sessions.getD i "") = true := by
  intro order
  induction order with
  | nil => intro i h; simp [randomScan] at h
  | cons j t ih =>
      intro i h
      rw [randomScan] at h
      by_cases ha : avail (sessions.getD j "") = true
      · rw [if_pos ha] at h
        cases h
        exact ⟨by simp, ha⟩
      · rw [if_neg ha] at h
        obtain ⟨hm, hav⟩ := ih i h
        exact ⟨by simp [hm], hav⟩

theorem randomScan_none {sessions : List String} {avail : String → Bool}
    {order : List ℕ}
    (hall : ∀ j ∈ order, avail (sessions.getD j "") = false) :
    randomScan sessions avail order = none := by
  induction order with
  | nil => rfl
  | cons j t ih =>
      rw [randomScan]
      rw [if_neg (by rw [hall j (by simp)]; simp)]
      exact ih (fun x hx => hall x (by simp [hx]))

theorem choose_sender_index_sound {mode : String} {sessions : List String}
    {last : ℤ} {d : List (String × ℚ)} {now : ℚ} {perma : List String}
    {order : List ℕ} (horder : ∀ j ∈ order, j < sessions.length) {i : ℕ}
    (h : choose_sender_index mode sessions last d now perma order = some i) :
    i < sessions.length ∧
      is_available perma d now (sessions.getD i "") = true := by
  unfold choose_sender_index at h
  by_cases hn : sessions.length = 0
  · rw [if_pos hn] at h; cases h
  · rw [if_neg hn] at h
    have hpos : 0 < sessions.length := Nat.pos_of_ne_zero hn
    by_cases hm1 : mode = "single_account"
    · rw [if_pos hm1] at h
      by_cases ha : is_available perma d now (sessions.getD 0 "") = true
      · rw [if_pos ha] at h
        cases h
        exact ⟨hpos, ha⟩
      · rw [if_neg ha] at h; cases h
    · rw [if_neg hm1] at h
      by_cases hm2 : mode = "random"
      · rw [if_pos hm2] at h
        obtain ⟨hm, hav⟩ := randomScan_sound order i h
        exact ⟨horder i hm, hav⟩
      · rw [if_neg hm2] at h
        exact rrScan_sound hpos _ _ _ h

theorem choose_sender_index_none {mode : String} {sessions : List String}
    {last : ℤ} {d : List (String × ℚ)} {now : ℚ} {perma : List String}
    {order : List ℕ} (horder : ∀ j ∈ order, j < sessions.length)
    (hall : ∀ j < sessions.length,
      is_available perma d now (sessions.getD j "") = false) :
    choose_sender_index mode sessions last d now perma order = none := by
  unfold choose_sender_index
  by_cases hn : sessions.length = 0
  · rw [if_pos hn]
  · rw [if_neg hn]
    have hpos : 0 < sessions.length := Nat.pos_of_ne_zero hn
    by_cases hm1 : mode = "single_account"
    · rw [if_pos hm1]
      rw [if_neg (by rw [hall 0 hpos]; simp)]
    · rw [if_neg hm1]
      by_cases hm2 : mode = "random"
      · rw [if_pos hm2]
        exact randomScan_none (fun j hj => hall j (horder j hj))
      · rw [if_neg hm2]
        exact rrScan_none hpos hall _ _

/-! ### Round-robin cycle arithmetic -/

theorem emod_add_left_emod (a b n : ℤ) : (a % n + b) % n = (a + b) % n := by
  conv_rhs => rw [Int.add_emod]
  rw [Int.add_emod (a % n) b, Int.emod_emod_of_dvd a (dvd_refl n)]

theorem emod_add_right_emod (a b n : ℤ) : (a + b % n) % n = (a + b) % n := by
  conv_rhs => rw [Int.add_emod]
  rw [Int.add_emod a (b % n), Int.emod_emod_of_dvd b (dvd_refl n)]

theorem cyclePositions_lt {n : ℕ} (hn : 0 < n) (last : ℤ) :
    ∀ i ∈ cyclePositions n last, i < n := by
  intro i hi
  obtain ⟨k, _, rfl⟩ := List.mem_map.1 hi
  have h0 : (0:ℤ) ≤ (last + 1 + (k:ℤ)) % (n:ℤ) :=
    Int.emod_nonneg _ (by exact_mod_cast hn.ne')
  have h1 : (last + 1 + (k:ℤ)) % (n:ℤ) < (n:ℤ) :=
    Int.emod_lt_of_pos _ (by exact_mod_cast hn)
  omega

theorem cyclePositions_nodup {n : ℕ} (hn : 0 < n) (last : ℤ) :
    (cyclePositions n last).Nodup := by
  unfold cyclePositions
  refine List.Nodup.map_on ?_ (List.nodup_range n)
  intro j₁ hj₁ j₂ hj₂ hf
  rw [List.mem_range] at hj₁ hj₂
  have h0₁ : (0:ℤ) ≤ (last + 1 + (j₁:ℤ)) % (n:ℤ) :=
    Int.emod_nonneg _ (by exact_mod_cast hn.ne')
  have h0₂ : (0:ℤ) ≤ (last + 1 + (j₂:ℤ)) % (n:ℤ) :=
    Int.emod_nonneg _ (by exact_mod_cast hn.ne')
  have heq : (last + 1 + (j₁:ℤ)) % (n:ℤ) = (last + 1 + (j₂:ℤ)) % (n:ℤ) := by omega
  have hsub : ((j₁:ℤ) - (j₂:ℤ)) % (n:ℤ) = 0 := by
    have : ((last + 1 + (j₁:ℤ)) - (last + 1 + (j₂:ℤ))) % (n:ℤ) = 0 := by
      rw [Int.sub_emod, heq, sub_self, Int.zero_emod]
    simpa using this
  obtain ⟨t, ht⟩ := Int.dvd_of_emod_eq_zero hsub
  have hb₁ : -(n:ℤ) < (j₁:ℤ) - (j₂:ℤ) := by omega
  have hb₂ : (j₁:ℤ) - (j₂:ℤ) < (n:ℤ) := by omega
  have hnz : (0:ℤ) < (n:ℤ) := by exact_mod_cast hn
  have ht0 : t = 0 := by
    by_contra h0
    rcases lt_or_gt_of_ne h0 with hneg | hpos
    · have h1 : t ≤ -1 := by omega
      have h2 : (n:ℤ) * t ≤ (n:ℤ) * (-1) :=
        mul_le_mul_of_nonneg_left h1 (le_of_lt hnz)
      omega
    · have h1 : (1:ℤ) ≤ t := by omega
      have h2 : (n:ℤ) * 1 ≤ (n:ℤ) * t :=
        mul_le_mul_of_nonneg_left h1 (le_of_lt hnz)
      omega
  rw [ht0, mul_zero] at ht
  omega

theorem cyclePositions_mem {n : ℕ} (hn : 0 < n) (last : ℤ) :
    ∀ i < n, i ∈ cyclePositions n last := by
  intro i hi
  have hnz : (n:ℤ) ≠ 0 := by exact_mod_cast hn.ne'
  have hpos : (0:ℤ) < (n:ℤ) := by exact_mod_cast hn
  set j : ℤ := ((i:ℤ) - (last + 1)) % (n:ℤ) with hj
  have hj0 : 0 ≤ j := Int.emod_nonneg _ hnz
  have hj1 : j < (n:ℤ) := Int.emod_lt_of_pos _ hpos
  unfold cyclePositions
  refine List.mem_map.2 ⟨j.toNat, List.mem_range.2 (by omega), ?_⟩
  have hcast : (j.toNat : ℤ) = j := Int.toNat_of_nonneg hj0
  have hsum : last + 1 + ((i:ℤ) - (last + 1)) = (i:ℤ) := by ring
  have hmod : (i:ℤ) % (n:ℤ) = (i:ℤ) :=
    Int.emod_eq_of_lt (by omega) (by exact_mod_cast hi)
  rw [hcast, hj, emod_add_right_emod, hsum, hmod]
  omega

theorem cycle_shift (last n : ℤ) (k : ℕ) :
    (((last + 1) % n) + 1 + (k:ℤ)) % n = (last + 1 + ((k+1:ℕ):ℤ)) % n := by
  rw [show ((last + 1) % n) + 1 + (k:ℤ) = (last + 1) % n + (1 + k) from by ring,
    emod_add_left_emod]
  congr 1
  push_cast
  ring

theorem rrScan_eq_find {sessions : List String} {avail : String → Bool} :
    ∀ (fuel : ℕ) (last : ℤ),
      rrScan sessions avail fuel last =
        ((List.range fuel).map
            (fun k : ℕ =>
              ((last + 1 + (k:ℤ)) % (sessions.length : ℤ)).toNat)).find?
          (fun i => avail (sessions.getD i "")) := by
  intro fuel
  induction fuel with
  | zero => intro last; rfl
  | succ m ih =>
      intro last
      rw [rrScan, List.range_succ_eq_map, List.map_cons, List.map_map]
      have hhead : ((last + 1 + ((0:ℕ):ℤ)) % (sessions.length : ℤ)).toNat
          = ((last + 1) % (sessions.length : ℤ)).toNat := by norm_num
      have htail :
          (List.range m).map
              ((fun k : ℕ =>
                ((last + 1 + (k:ℤ)) % (sessions.length : ℤ)).toNat) ∘ Nat.succ)
            = (List.range m).map (fun k : ℕ =>
                (((last + 1) % (sessions.length : ℤ) + 1 + (k:ℤ))
                  % (sessions.length : ℤ)).toNat) := by
        refine List.map_congr_left ?_
        intro k _
        show ((last + 1 + ((Nat.succ k : ℕ):ℤ)) % (sessions.length : ℤ)).toNat = _
        rw [cycle_shift last (sessions.length : ℤ) k]
      by_cases hp :
          avail (sessions.getD ((last + 1) % (sessions.length : ℤ)).toNat "") = true
      · rw [if_pos hp]
        rw [List.find?_cons_of_pos _ (by simpa [hhead] using hp)]
        rw [hhead]
      · rw [if_neg hp]
        rw [List.find?_cons_of_neg _ (by simpa [hhead] using hp)]
        rw [ih ((last + 1) % (sessions.length : ℤ)), htail]

theorem choose_rr_eq {sessions : List String} (hn : 0 < sessions.length)
    (last : ℤ) (d : List (String × ℚ)) (now : ℚ) (perma : List String)
    (order : List ℕ) :
    choose_sender_index "round_robin" sessions last d now perma order =
      (cyclePositions sessions.length last).find?
        (fun i => is_available perma d now (sessions.getD i "")) := by
  unfold choose_sender_index
  rw [if_neg (by omega), if_neg (by decide), if_neg (by decide)]
  exact rrScan_eq_find sessions.length last

theorem choose_rr_all_avail {sessions : List String} {d : List (String × ℚ)}
    {now : ℚ} {perma : List String} (hn : 0 < sessions.length)
    (hall : ∀ j < sessions.length,
      is_available perma d now (sessions.getD j "") = true)
    (last : ℤ) (order : List ℕ) :
    choose_sender_index "round_robin" sessions last d now perma order
      = some (((last + 1) % (sessions.length : ℤ)).toNat) := by
  unfold choose_sender_index
  rw [if_neg (by omega), if_neg (by decide), if_neg (by decide)]
  obtain ⟨m, hm⟩ : ∃ m, sessions.length = m + 1 := ⟨sessions.length - 1, by omega⟩
  rw [rrScan_eq_find]
  rw [hm] at hall ⊢
  rw [List.range_succ_eq_map, List.map_cons]
  have h0 : (0:ℤ) ≤ (last + 1 + ((0:ℕ):ℤ)) % (((m+1:ℕ)):ℤ) :=
    Int.emod_nonneg _ (by push_cast; omega)
  have h1 : (last + 1 + ((0:ℕ):ℤ)) % (((m+1:ℕ)):ℤ) < (((m+1:ℕ)):ℤ) :=
    Int.emod_lt_of_pos _ (by push_cast; omega)
  have hp : (fun i => is_available perma d now (sessions.getD i ""))
      (((last + 1 + ((0:ℕ):ℤ)) % (((m+1:ℕ)):ℤ)).toNat) = true :=
    hall _ (by omega)
  rw [@List.find?_cons_of_pos _ (fun i => is_available perma d now (sessions.getD i "")) _ _ hp]
  norm_num

theorem rrVisits_all {sessions : List String} {d : List (String × ℚ)}
    {now : ℚ} {perma : List String} (hn : 0 < sessions.length)
    (hall : ∀ j < sessions.length,
      is_available perma d now (sessions.getD j "") = true) :
    ∀ (k : ℕ) (last : ℤ),
      rrVisits sessions d now perma k last
        = (List.range k).map (fun j : ℕ =>
            ((last + 1 + (j:ℤ)) % (sessions.length : ℤ)).toNat) := by
  intro k
  induction k with
  | zero => intro last; rfl
  | succ m ih =>
      intro last
      have h0 : (0:ℤ) ≤ (last + 1) % (sessions.length : ℤ) :=
        Int.emod_nonneg _ (by exact_mod_cast hn.ne')
      have hch := choose_rr_all_avail hn hall last ([] : List ℕ)
      rw [rrVisits, hch]
      show (((last + 1) % (sessions.length : ℤ)).toNat) ::
          rrVisits sessions d now perma m
            ((((last + 1) % (sessions.length : ℤ)).toNat : ℕ) : ℤ) = _
      rw [ih]
      rw [List.range_succ_eq_map, List.map_cons, List.map_map]
      have hhead : ((last + 1 + ((0:ℕ):ℤ)) % (sessions.length : ℤ)).toNat
          = ((last + 1) % (sessions.length : ℤ)).toNat := by norm_num
      rw [hhead]
      congr 1
      refine List.map_congr_left ?_
      intro j _
      show (((((last + 1) % (sessions.length : ℤ)).toNat : ℤ) + 1 + (j:ℤ))
          % (sessions.length : ℤ)).toNat
        = ((last + 1 + ((Nat.succ j : ℕ):ℤ)) % (sessions.length : ℤ)).toNat
      rw [Int.toNat_of_nonneg h0]
      rw [cycle_shift last (sessions.length : ℤ) j]

/-! ### Branch equations for one send attempt -/

theorem dictGet_set_self (d : List (String × ℚ)) (k : String) (v default : ℚ) :
    dictGet (dictSet d k v) k default = v := by
  simp [dictGet, dictSet]

theorem send_one_message_cap {sess uname : String} {outcome : SendOutcome}
    {now u : ℚ} {st : SendState}
    (hcount : 2 ≤ natDictGet st.send_counter sess 0) :
    send_one_message sess uname outcome now u st
      = (false, { st with
          disabled_until := dictSet st.disabled_until sess (now + u) }) := by
  simp only [send_one_message, if_pos hcount]

theorem send_one_message_success {sess uname : String} {now u : ℚ}
    {st : SendState} (hcount : ¬ 2 ≤ natDictGet st.send_counter sess 0) :
    send_one_message sess uname .success now u st
      = (true, { st with
          send_counter := natDictSet st.send_counter sess
            (natDictGet st.send_counter sess 0 + 1),
          sent_hist := histSet st.sent_hist (.str (pyLower uname)) now }) := by
  simp only [send_one_message, if_neg hcount]

theorem send_one_message_privacy {sess uname : String} {now u : ℚ}
    {st : SendState} (hcount : ¬ 2 ≤ natDictGet st.send_counter sess 0) :
    send_one_message sess uname .userPrivacyRestricted now u st = (false, st) := by
  simp only [send_one_message, if_neg hcount]

theorem send_one_message_badRequest {sess uname : String} {now u : ℚ}
    {st : SendState} (hcount : ¬ 2 ≤ natDictGet st.send_counter sess 0) :
    send_one_message sess uname .badRequest now u st = (false, st) := by
  simp only [send_one_message, if_neg hcount]

theorem send_one_message_peerFlood {sess uname : String} {now u : ℚ}
    {st : SendState} (hcount : ¬ 2 ≤ natDictGet st.send_counter sess 0) :
    send_one_message sess uname .peerFlood now u st
      = (false, { st with
          disabled_until := dictSet st.disabled_until sess (now + 6 * 3600) }) := by
  simp only [send_one_message, if_neg hcount]

theorem send_one_message_floodWait {sess uname : String} {now u : ℚ} {w : ℤ}
    {st : SendState} (hcount : ¬ 2 ≤ natDictGet st.send_counter sess 0) :
    send_one_message sess uname (.floodWait w) now u st
      = (false, { st with
          disabled_until := dictSet st.disabled_until sess (now + (w:ℚ) + 2) }) := by
  simp only [send_one_message, if_neg hcount]

theorem send_one_message_generic {sess uname : String} {now u : ℚ}
    {st : SendState} (hcount : ¬ 2 ≤ natDictGet st.send_counter sess 0) :
    send_one_message sess uname .genericError now u st
      = (false, { st with
          disabled_until := dictSet st.disabled_until sess (now + 300) }) := by
  simp only [send_one_message, if_neg hcount]

theorem process_outcome_fail {flow sess username uname mkey : String}
    {outcome : SendOutcome} {now u : ℚ} {st : FlowState} {core' : SendState}
    (hsend : send_one_message sess uname outcome now u st.core
      = (false, core')) :
    process_outcome flow sess username uname mkey outcome now u st
      = { st with
          queue_file := (move_line_to_end_atomic st.queue_file username).1,
          core := core' } := by
  unfold process_outcome
  rw [hsend]
  rfl

theorem process_outcome_ok {flow sess username uname mkey : String}
    {outcome : SendOutcome} {now u : ℚ} {st : FlowState} {core' : SendState}
    (hsend : send_one_message sess uname outcome now u st.core
      = (true, core')) :
    process_outcome flow sess username uname mkey outcome now u st
      = { queue_file := remove_username_from_file_atomic st.queue_file username,
          send_log := st.send_log ++ [⟨now, uname, flow, sess, "OK", ""⟩],
          history_file := st.history_file ++ [⟨now, uname, mkey⟩],
          core := core' } := by
  unfold process_outcome
  rw [hsend]
  rfl

/-! ### Claims -/

/-- Claim C10 (selector availability safety): for every selection mode string
(including unrecognized ones, which fall through to the round-robin branch),
every session list, cooldown map, deny-list, cursor and time, whenever
`choose_sender_index` returns an index `i`, then `i` is a valid index and the
selected session is available — not in the permanent deny-list and the
current time is ≥ its cooldown-until entry (missing entry counts as `0`);
when no session is available it returns `none` rather than failing.
(`order` models the shuffled index order drawn in `random` mode, hence the
hypothesis that its entries are valid indices.) -/
theorem claim_C10 (mode : String) (sessions : List String) (last : ℤ)
    (disabled_until : List (String × ℚ)) (now_ts : ℚ)
    (perma_blocked : List String) (order : List ℕ)
    (horder : ∀ j ∈ order, j < sessions.length) :
    (∀ i, choose_sender_index mode sessions last disabled_until now_ts
        perma_blocked order = some i →
      i < sessions.length ∧ sessions.getD i "" ∉ perma_blocked ∧
        dictGet disabled_until (sessions.getD i "") 0 ≤ now_ts) ∧
    ((∀ j < sessions.length,
        is_available perma_blocked disabled_until now_ts (sessions.getD j "")
          = false) →
      choose_sender_index mode sessions last disabled_until now_ts
          perma_blocked order = none) := by
  constructor
  · intro i hi
    obtain ⟨hlt, hav⟩ := choose_sender_index_sound horder hi
    obtain ⟨hp, hd⟩ := is_available_iff.1 hav
    exact ⟨hlt, hp, hd⟩
  · intro hall
    exact choose_sender_index_none horder hall

/-- Witness for C10: two sessions, the first cooling down until `t = 50`
at current time `10`, the second permanently blocked, an unrecognized mode
string — the selector reports exhaustion instead of failing. -/
theorem claim_C10_witness :
    choose_sender_index "weird_mode" ["a", "b"] 0 [("a", 50)] 10 ["b"] []
      = none := by
  have h := claim_C10 "weird_mode" ["a", "b"] 0 [("a", 50)] 10 ["b"] []
    (fun j hj => absurd hj (List.not_mem_nil j))
  exact h.2 (by decide)

/-- Claim C6 (round-robin single-advance scan and fairness): in `round_robin`
mode the selector returns exactly the first available position of the cyclic
probe sequence `(last+1) % n, (last+2) % n, …, (last+n) % n` — it advances
one position, wraps modulo the pool size, scans at most one full cycle, and
returns exhaustion otherwise; and when all `n` identities are available,
`n` consecutive selections, each feeding its result back as the cursor,
visit each identity exactly once before any repeat. -/
theorem claim_C6 (sessions : List String) (disabled_until : List (String × ℚ))
    (now_ts : ℚ) (perma_blocked : List String) (hn : 0 < sessions.length) :
    (∀ (last : ℤ) (order : List ℕ),
      choose_sender_index "round_robin" sessions last disabled_until now_ts
          perma_blocked order
        = (cyclePositions sessions.length last).find?
            (fun i => is_available perma_blocked disabled_until now_ts
              (sessions.getD i ""))) ∧
    ((∀ j < sessions.length,
        is_available perma_blocked disabled_until now_ts (sessions.getD j "")
          = true) →
      ∀ last : ℤ,
        rrVisits sessions disabled_until now_ts perma_blocked
            sessions.length last
          = cyclePositions sessions.length last ∧
        (cyclePositions sessions.length last).Nodup ∧
        (∀ i ∈ cyclePositions sessions.length last, i < sessions.length) ∧
        (∀ i < sessions.length,
          (cyclePositions sessions.length last).count i = 1)) := by
  constructor
  · intro last order
    exact choose_rr_eq hn last disabled_until now_ts perma_blocked order
  · intro hall last
    have hnd := cyclePositions_nodup hn last
    have hmem := cyclePositions_mem hn last
    refine ⟨?_, hnd, cyclePositions_lt hn last, ?_⟩
    · rw [rrVisits_all hn hall sessions.length last]
      rfl
    · intro i hi
      exact List.count_eq_one_of_mem hnd (hmem i hi)

/-- Witness for C6: three always-available sessions, cursor `-1` (the
initial value of `last_idx_ref`): three fed-back selections visit
`[0, 1, 2]`. -/
theorem claim_C6_witness :
    rrVisits ["s1", "s2", "s3"] [] 0 [] 3 (-1) = [0, 1, 2] := by
  have h := claim_C6 ["s1", "s2", "s3"] [] 0 [] (by decide)
  show rrVisits ["s1", "s2", "s3"] [] 0 [] (["s1", "s2", "s3"].length) (-1)
    = [0, 1, 2]
  rw [(h.2 (by decide) (-1)).1]
  decide

/-- Claim C9 (history-cooldown lookup): `within_history_window` returns `true`
iff a record exists for `(recipient, variant_key)` and `now − last_sent_at <
window`; after recording `(r, v)` at `t0`, it is `true` for every `now` with
`t0 ≤ now < t0 + days·86400` and `false` for every `now ≥ t0 + days·86400`,
and it is `false` when no record exists. -/
theorem claim_C9 (hist : List (HistKey × ℚ)) (r v : String) (days : ℕ)
    (t0 : ℚ) :
    (∀ now : ℚ, t0 ≤ now → now < t0 + (days:ℚ) * 86400 →
      within_history_window (histSet hist (.tup r v) t0) r v days now
        = true) ∧
    (∀ now : ℚ, t0 + (days:ℚ) * 86400 ≤ now →
      within_history_window (histSet hist (.tup r v) t0) r v days now
        = false) ∧
    (histGet hist (.tup r v) = none →
      ∀ now : ℚ, within_history_window hist r v days now = false) ∧
    (∀ now : ℚ, within_history_window hist r v days now = true ↔
      ∃ t, histGet hist (.tup r v) = some t ∧ now - t < (days:ℚ) * 86400) := by
  have hget : histGet (histSet hist (.tup r v) t0) (.tup r v) = some t0 := by
    simp [histGet, histSet]
  refine ⟨?_, ?_, ?_, ?_⟩
  · intro now _ h2
    rw [within_history_window, hget]
    simpa using by linarith
  · intro now h1
    rw [within_history_window, hget]
    simpa using by linarith
  · intro hnone now
    rw [within_history_window, hnone]
  · intro now
    rw [within_history_window]
    cases hg : histGet hist (.tup r v) with
    | none => simp
    | some t => simp

/-- Witness for C9: empty history — the lookup returns `false`. -/
theorem claim_C9_witness :
    within_history_window [] "@alice" "flow|tpl" 7 1000 = false := by
  have h := claim_C9 [] "@alice" "flow|tpl" 7 0
  exact h.2.2.1 (by rfl) 1000

/-- Claim C4 (per-turn cap): once an identity has performed 2 sends in a flow
run (`send_counter` is created per `_process_file_sends` call, so the counter
is flow-run-scoped), the next attempt through it performs no send — the
transport outcome is never consulted, the history and the counter are left
unchanged — and instead sets the pool-wide `disabled_until[session]` to
`now + u` where `u` is drawn from `[20, 40]` seconds; while that cooldown has
not expired, no selection mode returns that identity, so the flow cannot use
it for a third send before expiry. -/
theorem claim_C4 (sess uname : String) (outcome : SendOutcome) (now u : ℚ)
    (st : SendState) (hcount : 2 ≤ natDictGet st.send_counter sess 0)
    (hu20 : 20 ≤ u) (hu40 : u ≤ 40) :
    (send_one_message sess uname outcome now u st).1 = false ∧
    (∀ outcome' : SendOutcome,
      send_one_message sess uname outcome' now u st
        = send_one_message sess uname outcome now u st) ∧
    (send_one_message sess uname outcome now u st).2.sent_hist
      = st.sent_hist ∧
    (send_one_message sess uname outcome now u st).2.send_counter
      = st.send_counter ∧
    dictGet (send_one_message sess uname outcome now u st).2.disabled_until
        sess 0 = now + u ∧
    now + 20 ≤ now + u ∧ now + u ≤ now + 40 ∧
    (∀ (mode : String) (sessions : List String) (last : ℤ)
        (perma : List String) (order : List ℕ) (now' : ℚ) (i : ℕ),
      now' < now + u → (∀ j ∈ order, j < sessions.length) →
      choose_sender_index mode sessions last
          (send_one_message sess uname outcome now u st).2.disabled_until
          now' perma order = some i →
      sessions.getD i "" ≠ sess) := by
  rw [send_one_message_cap hcount]
  refine ⟨rfl, ?_, rfl, rfl, dictGet_set_self _ _ _ _, by linarith, by linarith, ?_⟩
  · intro outcome'
    rw [send_one_message_cap hcount]
  · intro mode sessions last perma order now' i hnow horder hsel heq
    obtain ⟨_, hav⟩ := choose_sender_index_sound horder hsel
    obtain ⟨_, hd⟩ := is_available_iff.1 hav
    rw [heq, dictGet_set_self] at hd
    linarith

/-- Witness for C4: identity `sess1` has already sent twice
(`send_counter = 2`); the attempt performs no send and sets the cooldown to
`now + u = 100 + 30`. -/
theorem claim_C4_witness :
    (send_one_message "sess1" "@alice" .success 100 30
      ⟨[], [], [("sess1", 2)]⟩).1 = false ∧
    dictGet (send_one_message "sess1" "@alice" .success 100 30
      ⟨[], [], [("sess1", 2)]⟩).2.disabled_until "sess1" 0 = 100 + 30 := by
  have h := claim_C4 "sess1" "@alice" .success 100 30 ⟨[], [], [("sess1", 2)]⟩
    (by decide) (by decide) (by decide)
  exact ⟨h.1, h.2.2.2.2.1⟩

/-- Claim C1, counterexample: the claim says a permanently failed recipient
(`UserPrivacyRestricted`) is removed from the queue; in the code the failed
attempt returns `False` and the dispatcher's `else` branch moves the
recipient to the end of the queue instead, so `@alice` is still present
after a privacy-restricted failure. -/
theorem claim_C1_counterexample :
    "@alice" ∈ read_lines_unique (process_outcome "flow1" "sess1" "@alice"
        "@alice" "k1" .userPrivacyRestricted 1000 30
        ⟨some ["@alice", "@bob"], [], [], ⟨[], [], []⟩⟩).queue_file ∧
    (process_outcome "flow1" "sess1" "@alice" "@alice" "k1"
        .userPrivacyRestricted 1000 30
        ⟨some ["@alice", "@bob"], [], [], ⟨[], [], []⟩⟩).queue_file
      = some ["@bob", "@alice"] := by
  constructor
  · decide
  · decide

/-- Claim C1, amended: after a permanent send failure (`UserPrivacyRestricted`
or `BadRequest`), the dispatcher leaves the recipient in this flow's queue,
moving it to the end (so it will be retried later), appends no send-log row,
records no history entry, and leaves the shared identity state (cooldowns,
counters, in-memory history) unchanged; the failure is handled locally, not
propagated as process-fatal. -/
theorem claim_C1_amended (flow sess username uname mkey : String)
    (outcome : SendOutcome) (now u : ℚ) (st : FlowState)
    (hcount : ¬ 2 ≤ natDictGet st.core.send_counter sess 0)
    (hclean : cleanFile st.queue_file)
    (hperm : outcome = .userPrivacyRestricted ∨ outcome = .badRequest) :
    (process_outcome flow sess username uname mkey outcome now u st).queue_file
        = (move_line_to_end_atomic st.queue_file username).1 ∧
    (∀ x, x ∈ read_lines_unique
        (process_outcome flow sess username uname mkey outcome now u
          st).queue_file
      ↔ x ∈ read_lines_unique st.queue_file) ∧
    (process_outcome flow sess username uname mkey outcome now u st).send_log
        = st.send_log ∧
    (process_outcome flow sess username uname mkey outcome now u
        st).history_file = st.history_file ∧
    (process_outcome flow sess username uname mkey outcome now u st).core
        = st.core := by
  have hstep : process_outcome flow sess username uname mkey outcome now u st
      = { st with
          queue_file := (move_line_to_end_atomic st.queue_file username).1,
          core := st.core } := by
    rcases hperm with rfl | rfl
    · exact process_outcome_fail (send_one_message_privacy hcount)
    · exact process_outcome_fail (send_one_message_badRequest hcount)
  rw [hstep]
  exact ⟨rfl, fun x => mem_read_move username hclean x, rfl, rfl, rfl⟩

/-- Witness for C1 (amended): a privacy-restricted failure for `@alice` on a
two-recipient queue leaves the queue as `[@bob, @alice]` and the shared
state untouched. -/
theorem claim_C1_witness :
    (process_outcome "flow1" "sess1" "@alice" "@alice" "k1"
        .userPrivacyRestricted 1000 30
        ⟨some ["@alice", "@bob"], [], [], ⟨[], [], []⟩⟩).send_log = [] ∧
    (process_outcome "flow1" "sess1" "@alice" "@alice" "k1"
        .userPrivacyRestricted 1000 30
        ⟨some ["@alice", "@bob"], [], [], ⟨[], [], []⟩⟩).history_file = [] ∧
    ("@alice" ∈ read_lines_unique (process_outcome "flow1" "sess1" "@alice"
        "@alice" "k1" .userPrivacyRestricted 1000 30
        ⟨some ["@alice", "@bob"], [], [], ⟨[], [], []⟩⟩).queue_file
      ↔ "@alice" ∈ read_lines_unique (some ["@alice", "@bob"])) := by
  have h := claim_C1_amended "flow1" "sess1" "@alice" "@alice" "k1"
    .userPrivacyRestricted 1000 30
    ⟨some ["@alice", "@bob"], [], [], ⟨[], [], []⟩⟩
    (by decide) (by decide : cleanLines ["@alice", "@bob"]) (Or.inl rfl)
  exact ⟨h.2.2.1, h.2.2.2.1, h.2.1 "@alice"⟩

/-- Claim C2, counterexample: the claim says every send attempt (success or
failure) appends exactly one row to the send-outcome log; in the code only
the success branch calls `append_send_log`, so a failed attempt (here a
generic transport error) leaves the log empty. -/
theorem claim_C2_counterexample :
    (process_outcome "flow1" "sess1" "@alice" "@alice" "k1" .genericError
        1000 30 ⟨some ["@alice"], [], [], ⟨[], [], []⟩⟩).send_log = [] := by
  rfl

/-- Claim C2, amended: exactly the successful send attempts append a row
`(timestamp, recipient, flow, identity, "OK", "")` to the send-outcome log
(the row is part of the same per-recipient step, hence written before the
dispatcher proceeds to the next recipient); failed attempts append no
row. -/
theorem claim_C2_amended (flow sess username uname mkey : String)
    (outcome : SendOutcome) (now u : ℚ) (st : FlowState) :
    ((send_one_message sess uname outcome now u st.core).1 = true →
      (process_outcome flow sess username uname mkey outcome now u
          st).send_log
        = st.send_log ++ [⟨now, uname, flow, sess, "OK", ""⟩]) ∧
    ((send_one_message sess uname outcome now u st.core).1 = false →
      (process_outcome flow sess username uname mkey outcome now u
          st).send_log = st.send_log) := by
  constructor
  · intro h
    have hsend : send_one_message sess uname outcome now u st.core
        = (true, (send_one_message sess uname outcome now u st.core).2) := by
      rw [← h]
    rw [process_outcome_ok hsend]
  · intro h
    have hsend : send_one_message sess uname outcome now u st.core
        = (false, (send_one_message sess uname outcome now u st.core).2) := by
      rw [← h]
    rw [process_outcome_fail hsend]

/-- Witness for C2 (amended): a successful send to `@alice` appends exactly
the `"OK"` row. -/
theorem claim_C2_witness :
    (process_outcome "flow1" "sess1" "@alice" "@alice" "k1" .success 1000 30
        ⟨some ["@alice"], [], [], ⟨[], [], []⟩⟩).send_log
      = [] ++ [⟨1000, "@alice", "flow1", "sess1", "OK", ""⟩] := by
  have h := claim_C2_amended "flow1" "sess1" "@alice" "@alice" "k1" .success
    1000 30 ⟨some ["@alice"], [], [], ⟨[], [], []⟩⟩
  exact h.1 rfl

/-- Claim C5, counterexample: the claim says a `FloodWait` failure disables the
identity for the server-indicated wait; the code sets the cooldown to
`now + wait + 2`, so with a 60-second server wait at `t = 1000` the
cooldown-until is not `1000 + 60`. -/
theorem claim_C5_counterexample :
    dictGet (send_one_message "sess1" "@carol" (.floodWait 60) 1000 30
        ⟨[], [], []⟩).2.disabled_until "sess1" 0 ≠ 1000 + 60 := by
  rw [send_one_message_floodWait (by decide), dictGet_set_self]
  norm_num

/-- Claim C5, amended: after a temporary send failure the recipient stays in
the queue (moved to the end, not removed), no send-history entry is recorded
(neither in the ledger nor in the in-memory map), no send-log row is
written, and the failing identity's cooldown-until is set to `now` plus a
duration scaled to the failure kind: `6 * 3600` seconds for `PeerFlood`, the
server-indicated wait plus a 2-second margin for `FloodWait`, and `300`
seconds for a generic transient error. -/
theorem claim_C5_amended (flow sess username uname mkey : String)
    (now u : ℚ) (st : FlowState)
    (hcount : ¬ 2 ≤ natDictGet st.core.send_counter sess 0)
    (hclean : cleanFile st.queue_file) :
    ((process_outcome flow sess username uname mkey .peerFlood now u
          st).queue_file
        = (move_line_to_end_atomic st.queue_file username).1 ∧
      (∀ x, x ∈ read_lines_unique (process_outcome flow sess username uname
            mkey .peerFlood now u st).queue_file
        ↔ x ∈ read_lines_unique st.queue_file) ∧
      (process_outcome flow sess username uname mkey .peerFlood now u
          st).history_file = st.history_file ∧
      (process_outcome flow sess username uname mkey .peerFlood now u
          st).core.sent_hist = st.core.sent_hist ∧
      (process_outcome flow sess username uname mkey .peerFlood now u
          st).send_log = st.send_log ∧
      dictGet (process_outcome flow sess username uname mkey .peerFlood now u
          st).core.disabled_until sess 0 = now + 6 * 3600) ∧
    (∀ w : ℤ,
      (process_outcome flow sess username uname mkey (.floodWait w) now u
          st).queue_file
        = (move_line_to_end_atomic st.queue_file username).1 ∧
      (∀ x, x ∈ read_lines_unique (process_outcome flow sess username uname
            mkey (.floodWait w) now u st).queue_file
        ↔ x ∈ read_lines_unique st.queue_file) ∧
      (process_outcome flow sess username uname mkey (.floodWait w) now u
          st).history_file = st.history_file ∧
      (process_outcome flow sess username uname mkey (.floodWait w) now u
          st).core.sent_hist = st.core.sent_hist ∧
      (process_outcome flow sess username uname mkey (.floodWait w) now u
          st).send_log = st.send_log ∧
      dictGet (process_outcome flow sess username uname mkey (.floodWait w)
          now u st).core.disabled_until sess 0 = now + (w:ℚ) + 2) ∧
    ((process_outcome flow sess username uname mkey .genericError now u
          st).queue_file
        = (move_line_to_end_atomic st.queue_file username).1 ∧
      (∀ x, x ∈ read_lines_unique (process_outcome flow sess username uname
            mkey .genericError now u st).queue_file
        ↔ x ∈ read_lines_unique st.queue_file) ∧
      (process_outcome flow sess username uname mkey .genericError now u
          st).history_file = st.history_file ∧
      (process_outcome flow sess username uname mkey .genericError now u
          st).core.sent_hist = st.core.sent_hist ∧
      (process_outcome flow sess username uname mkey .genericError now u
          st).send_log = st.send_log ∧
      dictGet (process_outcome flow sess username uname mkey .genericError
          now u st).core.disabled_until sess 0 = now + 300) := by
  refine ⟨?_, fun w => ?_, ?_⟩
  · rw [process_outcome_fail (send_one_message_peerFlood hcount)]
    exact ⟨rfl, fun x => mem_read_move username hclean x, rfl, rfl, rfl,
      dictGet_set_self _ _ _ _⟩
  · rw [process_outcome_fail (send_one_message_floodWait hcount)]
    exact ⟨rfl, fun x => mem_read_move username hclean x, rfl, rfl, rfl,
      dictGet_set_self _ _ _ _⟩
  · rw [process_outcome_fail (send_one_message_generic hcount)]
    exact ⟨rfl, fun x => mem_read_move username hclean x, rfl, rfl, rfl,
      dictGet_set_self _ _ _ _⟩

/-- Witness for C5 (amended): a generic transient failure for `@carol` keeps
her in the queue, records nothing, and puts `sess1` on a `1000 + 300`
cooldown. -/
theorem claim_C5_witness :
    ("@carol" ∈ read_lines_unique (process_outcome "flow1" "sess1" "@carol"
        "@carol" "k1" .genericError 1000 30
        ⟨some ["@carol", "@dave"], [], [], ⟨[], [], []⟩⟩).queue_file
      ↔ "@carol" ∈ read_lines_unique (some ["@carol", "@dave"])) ∧
    (process_outcome "flow1" "sess1" "@carol" "@carol" "k1" .genericError
        1000 30 ⟨some ["@carol", "@dave"], [], [],
          ⟨[], [], []⟩⟩).history_file = [] ∧
    dictGet (process_outcome "flow1" "sess1" "@carol" "@carol" "k1"
        .genericError 1000 30 ⟨some ["@carol", "@dave"], [], [],
          ⟨[], [], []⟩⟩).core.disabled_until "sess1" 0 = 1000 + 300 := by
  have h := claim_C5_amended "flow1" "sess1" "@carol" "@carol" "k1" 1000 30
    ⟨some ["@carol", "@dave"], [], [], ⟨[], [], []⟩⟩
    (by decide) (by decide : cleanLines ["@carol", "@dave"])
  exact ⟨h.2.2.2.1 "@carol", h.2.2.2.2.1, h.2.2.2.2.2.2.2⟩

/-- Claim C3 (code bug): recording a successful send is supposed to update the
in-memory history map so that an immediately subsequent
`within_history_window` lookup for the same `(recipient, message_key)` in
the same process returns `true` without reloading the ledger.  The ledger
row is appended, but `send_one_message` updates the in-memory dict under the
plain string key `username.lower()` while `within_history_window` looks up
the tuple key `(username, message_key)` (the shape `load_sent_history`
produces), so the lookup still returns `false`. -/
theorem claim_C3_bug :
    (process_outcome "flow1" "sess1" "@alice" "@alice" "flow1|tpl" .success
        1000 30 ⟨some ["@alice"], [], [], ⟨[], [], []⟩⟩).history_file
      = [⟨1000, "@alice", "flow1|tpl"⟩] ∧
    within_history_window
      (process_outcome "flow1" "sess1" "@alice" "@alice" "flow1|tpl" .success
        1000 30 ⟨some ["@alice"], [], [], ⟨[], [], []⟩⟩).core.sent_hist
      "@alice" "flow1|tpl" 7 1000 = false := by
  constructor
  · rfl
  · rfl

/-- Claim C7 (queue dedup contract): starting from a fresh (missing or empty)
queue file, after any sequence of `append_unique_line` calls with normalized
recipient tokens, loading returns each distinct appended recipient exactly
once, in first-append order (`firstAppendOrder`, equal to the loader's own
first-occurrence dedup); `append_unique_line` returns `true` iff the line
was not already present in the file; and a missing file loads as the empty
sequence. -/
theorem claim_C7 (rs : List String) (h : ∀ r ∈ rs, pyStrip r = r ∧ r ≠ "") :
    read_lines_unique (appendAll none rs).1 = firstAppendOrder rs ∧
    firstAppendOrder rs = dedupFirst rs ∧
    (firstAppendOrder rs).Nodup ∧
    (∀ x, x ∈ firstAppendOrder rs ↔ x ∈ rs) ∧
    (firstAppendOrder rs).Sublist rs ∧
    (∀ (file : Option (List String)) (line : String),
      (append_unique_line file line).2
        = !decide (line ∈ read_lines_unique file)) ∧
    read_lines_unique none = [] := by
  have hfo := firstAppendOrder_eq_dedupFirst rs
  refine ⟨?_, hfo, ?_, ?_, ?_, append_unique_line_bool, rfl⟩
  · cases rs with
    | nil => rfl
    | cons r t =>
        have hrc := h r (by simp)
        have ht : ∀ x ∈ t, pyStrip x = x ∧ x ≠ "" :=
          fun x hx => h x (by simp [hx])
        have hclean1 : cleanLines [r] := by
          intro l hl
          rw [List.mem_singleton.1 hl]
          exact hrc
        have h1 : append_unique_line none r = (some ([] ++ [r]), true) := by
          simp [append_unique_line, stripLines]
        show read_lines_unique (appendAll (append_unique_line none r).1 t).1
          = firstAppendOrder (r :: t)
        rw [h1]
        show read_lines_unique (appendAll (some [r]) t).1
          = firstAppendOrder (r :: t)
        rw [appendAll_some t [r] hclean1 (List.nodup_singleton r) ht]
        obtain ⟨hc, hn⟩ := foldl_addIfAbsent_clean_nodup t [r] hclean1
          (List.nodup_singleton r) ht
        rw [read_lines_unique_of_clean_nodup hc hn]
        show _ = List.foldl addIfAbsent [] (r :: t)
        rw [List.foldl_cons]
        rw [show addIfAbsent [] r = [r] from by simp [addIfAbsent]]
  · rw [hfo]; exact nodup_dedupFirst rs
  · rw [hfo]; exact fun x => mem_dedupFirst
  · rw [hfo]; exact sublist_dedupFirstAux [] rs

/-- Witness for C7: appending `@alice`, `@bob`, `@alice` to a fresh queue
loads as `[@alice, @bob]`, with the duplicate append returning `false`. -/
theorem claim_C7_witness :
    read_lines_unique (appendAll none ["@alice", "@bob", "@alice"]).1
      = ["@alice", "@bob"] ∧
    (appendAll none ["@alice", "@bob", "@alice"]).2
      = [true, true, false] := by
  have h := claim_C7 ["@alice", "@bob", "@alice"] (by decide)
  constructor
  · rw [h.1]; decide
  · decide

/-- Claim C8 (move-to-end contract): `move_line_to_end_atomic` relocates the
first occurrence of the line to the end of the loaded queue and returns
`true`, preserving the relative order of all other entries; it returns
`false` and leaves the file unchanged when the line is absent; repeated
application is idempotent on the loaded queue; and on the concrete queue
`[a, b, c]`, moving `b` yields `[a, c, b]`, and moving `b` again yields
`[a, c, b]` unchanged. -/
theorem claim_C8 (file : Option (List String)) (line : String)
    (hclean : cleanFile file) :
    (line ∈ read_lines_unique file →
      (move_line_to_end_atomic file line).2 = true ∧
      read_lines_unique (move_line_to_end_atomic file line).1
        = (read_lines_unique file).filter (· ≠ line) ++ [line]) ∧
    (line ∉ read_lines_unique file →
      move_line_to_end_atomic file line = (file, false)) ∧
    read_lines_unique
        (move_line_to_end_atomic (move_line_to_end_atomic file line).1 line).1
      = read_lines_unique (move_line_to_end_atomic file line).1 ∧
    (move_line_to_end_atomic (some ["a", "b", "c"]) "b"
        = (some ["a", "c", "b"], true) ∧
      move_line_to_end_atomic (some ["a", "c", "b"]) "b"
        = (some ["a", "c", "b"], true)) := by
  have hnd := nodup_read_lines_unique file
  refine ⟨?_, move_spec_not_mem, ?_, by decide, by decide⟩
  · intro hmem
    rw [move_spec_mem hmem]
    obtain ⟨hc, hn⟩ :=
      clean_erase_append (clean_read_lines_unique hclean) hnd hmem
    refine ⟨rfl, ?_⟩
    show read_lines_unique
        (some ((read_lines_unique file).erase line ++ [line])) = _
    rw [read_lines_unique_of_clean_nodup hc hn, hnd.erase_eq_filter]
    congr 1
    apply List.filter_congr
    intro x _
    by_cases hx : x = line
    · subst hx; simp
    · simp [hx]
  · by_cases hmem : line ∈ read_lines_unique file
    · rw [move_spec_mem hmem]
      obtain ⟨hc, hn⟩ :=
        clean_erase_append (clean_read_lines_unique hclean) hnd hmem
      have hread : read_lines_unique
          (some ((read_lines_unique file).erase line ++ [line]))
          = (read_lines_unique file).erase line ++ [line] :=
        read_lines_unique_of_clean_nodup hc hn
      have hmem2 : line ∈ read_lines_unique
          (some ((read_lines_unique file).erase line ++ [line])) := by
        rw [hread]
        simp
      rw [move_spec_mem hmem2, hread]
      have hnotin : line ∉ (read_lines_unique file).erase line := by
        intro hx
        exact (hnd.mem_erase_iff.1 hx).1 rfl
      have herase : ((read_lines_unique file).erase line ++ [line]).erase line
          = (read_lines_unique file).erase line := by
        rw [List.erase_append_right _ hnotin, List.erase_cons_head,
          List.append_nil]
      show read_lines_unique (some (((read_lines_unique file).erase line
          ++ [line]).erase line ++ [line])) = _
      rw [herase]
      exact read_lines_unique_of_clean_nodup hc hn
    · rw [move_spec_not_mem hmem, move_spec_not_mem hmem]

/-- Witness for C8: moving `b` to the end of the clean queue `[a, b, c]`
succeeds. -/
theorem claim_C8_witness :
    (move_line_to_end_atomic (some ["a", "b", "c"]) "b").2 = true := by
  have h := claim_C8 (some ["a", "b", "c"]) "b"
    (by decide : cleanLines ["a", "b", "c"])
  exact (h.1 (by decide)).1

end Bot
